import Mathlib

/-!
# Verification of the workspace dependency topological sort

This file gives a shallow embedding of `topoSort` from
`packages/dev/scripts/util.mjs` (lines 442-539) and proves the
specification's claims about it.

The JavaScript function takes a list of package directory names, derives
dependency edges by reading each package manifest, builds a node table,
runs a depth-first traversal that detects cycles via the current ancestor
path, and returns `sorted ++ circularSorted ++ standAlones`.

Embedding choices:

* Package identifiers are an arbitrary type `α` with decidable equality
  (the code uses strings; nothing depends on the string structure).
* The manifest reads (`fs.readFileSync` + dependency-key membership test)
  are abstracted into the injected lookup `deps : α → α → Bool`, where
  `deps dir d` models `Object.keys(deps).includes('@substrate/' + d)` for
  the manifest of `dir`.  The edge construction
  `dirs.filter((d) => d !== dir && …).map((d) => [dir, d])` is kept as is.
* The JS object `nodes` (plain object keyed by package id, insertion
  ordered) is an insertion-ordered association list; `visited` and
  `circular` likewise keep the JS key-insertion order.
* The recursive closure `cb` is modelled with explicit fuel; `.error
  .fuelExhausted` models non-termination and `.error (.missingNode k)`
  models the JS `TypeError` that `nodes[key].id` would raise on a missing
  node.  Both are proved unreachable.
* `Array.prototype.sort` with the comparator
  `(a, b) => len a < len b ? -1 : 1` (an inconsistent comparator that
  never returns 0) is modelled as a stable ascending insertion sort:
  elements are processed left to right and each is placed after all
  elements that are not strictly greater, which is what the engine's
  binary-insertion sort does with this comparator, and is the stability
  contract the specification fixes for ties.
-/

namespace TopoSpec

variable {α : Type} [DecidableEq α]

/-- State threaded through the traversal: the JS `visited` record (as the
list of keys set to `true`, most recent first), the `sorted` output array
and the `circular` record (keys in insertion order). -/
structure St (α : Type) where
  visited : List α
  sorted : List α
  circular : List α
  deriving Repr, DecidableEq

/-- Failure modes of the embedded traversal: `fuelExhausted` models
non-termination of the recursion, `missingNode k` models the `TypeError`
that `nodes[key].id` would raise when no node exists for `key`. -/
inductive Err (α : Type) where
  | fuelExhausted : Err α
  | missingNode : α → Err α
  deriving Repr, DecidableEq

/-- `edges.flat()`: the flattened endpoint list of the edge array. -/
def flatEdges (edges : List (α × α)) : List α :=
  (edges.map (fun e => [e.1, e.2])).flatten

/-- Edge derivation (lines 501-508): for each `dir`, an edge `(dir, d)`
for every other input id `d` whose `@substrate/`-prefixed name occurs in
`dir`'s manifest dependencies, in input order. -/
def buildEdges (dirs : List α) (deps : α → α → Bool) : List (α × α) :=
  (dirs.map (fun dir =>
    (dirs.filter (fun d => decide (d ≠ dir) && deps dir d)).map (fun d => (dir, d)))).flatten

/-- First-match lookup in the node table (JS `nodes[key]`, returning the
adjacency list of the node, `none` when the key is absent). -/
def findAdj : List (α × List α) → α → Option (List α)
  | [], _ => none
  | (k, vs) :: rest, key => if k = key then some vs else findAdj rest key

/-- `if (!nodes[k]) nodes[k] = new Node(k)`: append a fresh empty node
when the key is absent. -/
def addNode (nodes : List (α × List α)) (k : α) : List (α × List α) :=
  if nodes.any (fun p => p.1 = k) then nodes else nodes ++ [(k, [])]

/-- `nodes[f].vertices.push(t)`: append `t` to the adjacency list of the
first entry with key `f`. -/
def addVert : List (α × List α) → α → α → List (α × List α)
  | [], _, _ => []
  | (k, vs) :: rest, f, t =>
    if k = f then (k, vs ++ [t]) :: rest else (k, vs) :: addVert rest f t

/-- Processing of one edge `(from, to)` (lines 510-522): ensure nodes for
both endpoints, then push `to` onto `from`'s adjacency list. -/
def addEdgeStep (ns : List (α × List α)) (e : α × α) : List (α × List α) :=
  addVert (addNode (addNode ns e.1) e.2) e.1 e.2

/-- Node-table construction (lines 510-522): for every edge ensure both
endpoints have nodes, then push the target onto the source's adjacency. -/
def buildNodes (edges : List (α × α)) : List (α × List α) :=
  edges.foldl addEdgeStep []

/-- The insertion-ordered key list of the node table (`Object.keys(nodes)`). -/
def nodeKeys (nodes : List (α × List α)) : List α :=
  nodes.map (fun p => p.1)

/-- Adjacency list of a key, empty when absent (only used where the key
is known to exist). -/
def adjL (nodes : List (α × List α)) (k : α) : List α :=
  (findAdj nodes k).getD []

/-- `circular[k] = nodes[k]`: record the key, keeping the first insertion
position when it is already present (JS object key semantics). -/
def pushCirc (st : St α) (k : α) : St α :=
  if k ∈ st.circular then st else ⟨st.visited, st.sorted, st.circular ++ [k]⟩

/-- The `node.vertices.forEach` loop body of `cb` (lines 481-493): for
each child `i`, if `i` is on the current ancestor path, add the current
node (guarded by `nodes[id].vertices.includes(i)`) and then `i` to the
circular record; recurse into `i` regardless.  `g` is the recursive
entry point (`cb` at the next smaller fuel). -/
def cbVertsG (nodes : List (α × List α))
    (g : α → List α → St α → Except (Err α) (St α))
    (key : α) (anc : List α) : List α → St α → Except (Err α) (St α)
  | [], st => .ok st
  | i :: rest, st =>
    let st1 := if i ∈ anc then
        pushCirc (if i ∈ adjL nodes key then pushCirc st key else st) i
      else st
    match g i anc st1 with
    | .error e => .error e
    | .ok st2 => cbVertsG nodes g key anc rest st2

/-- The recursive closure `cb` (lines 470-498): look up the node (a
missing node is the JS `TypeError`), return at once when already visited,
otherwise extend the ancestor path, mark visited, process the children,
and finally append the id to `sorted` unless it was recorded circular. -/
def cbF (nodes : List (α × List α)) : Nat → α → List α → St α → Except (Err α) (St α)
  | 0, _, _, _ => .error .fuelExhausted
  | f + 1, key, anc, st =>
    match findAdj nodes key with
    | none => .error (.missingNode key)
    | some verts =>
      if key ∈ st.visited then .ok st
      else
        let anc' := anc ++ [key]
        let st1 : St α := ⟨key :: st.visited, st.sorted, st.circular⟩
        match cbVertsG nodes (cbF nodes f) key anc' verts st1 with
        | .error e => .error e
        | .ok st2 =>
          .ok (if key ∈ st2.circular then st2
               else ⟨st2.visited, st2.sorted ++ [key], st2.circular⟩)

/-- The driver loop `for (const key of keys) cb(key, [])` (lines 524-528). -/
def runKeys (nodes : List (α × List α)) (f : Nat) : List α → St α → Except (Err α) (St α)
  | [], st => .ok st
  | k :: ks, st =>
    match cbF nodes f k [] st with
    | .error e => .error e
    | .ok st' => runKeys nodes f ks st'

/-- Out-degree of a node: `circular[k].vertices.length`. -/
def outDeg (nodes : List (α × List α)) (k : α) : Nat :=
  (adjL nodes k).length

/-- One step of the circular sort: place `x` after every element that is
not of strictly larger out-degree (this is where the comparator
`(a, b) => len a < len b ? -1 : 1` sends it). -/
def insertLen (nodes : List (α × List α)) (x : α) : List α → List α
  | [] => [x]
  | y :: ys =>
    if outDeg nodes x < outDeg nodes y then x :: y :: ys
    else y :: insertLen nodes x ys

/-- `Object.keys(circular).sort(…)` (lines 530-531): stable ascending
sort of the circular keys by out-degree, processing keys in insertion
order. -/
def sortCirc (nodes : List (α × List α)) (l : List α) : List α :=
  l.foldl (fun acc x => insertLen nodes x acc) []

/-- The traversal pipeline on an already-derived edge list: build the
node table, snapshot its keys, and run `cb` over every key starting from
the empty state.  The fuel `keys.length + 1` is proved sufficient. -/
def runTopoE (edges : List (α × α)) : Except (Err α) (St α) :=
  let nodes := buildNodes edges
  let keys := nodeKeys nodes
  runKeys nodes (keys.length + 1) keys ⟨[], [], []⟩

/-- Full traversal from the inputs. -/
def runTopo (dirs : List α) (deps : α → α → Bool) : Except (Err α) (St α) :=
  runTopoE (buildEdges dirs deps)

/-- The three blocks of the result on an edge list: `sorted`, the sorted
circular keys, and the standalone packages
`dirs.filter((d) => !flattenedEdges.includes(d))` (lines 530-538). -/
def topoSortPartsE (dirs : List α) (edges : List (α × α)) :
    Except (Err α) (List α × List α × List α) :=
  (runTopoE edges).map (fun st =>
    (st.sorted, sortCirc (buildNodes edges) st.circular,
     dirs.filter (fun d => decide (d ∉ flatEdges edges))))

/-- The three result blocks from the inputs. -/
def topoSortParts (dirs : List α) (deps : α → α → Bool) :
    Except (Err α) (List α × List α × List α) :=
  topoSortPartsE dirs (buildEdges dirs deps)

/-- `topoSort` (lines 442-539): the singleton short-circuit (lines
452-454) followed by the traversal and the concatenation
`sorted.concat(circularSorted).concat(standAlones)`. -/
def topoSort (dirs : List α) (deps : α → α → Bool) : Except (Err α) (List α) :=
  if dirs.length = 1 then .ok dirs
  else (topoSortParts dirs deps).map (fun p => p.1 ++ p.2.1 ++ p.2.2)

/-! ## Characterization of the node table -/

/-- The adjacency list the node table assigns to `k` after processing an
edge list: the targets of the edges out of `k`, in order. -/
def outsOf (edges : List (α × α)) (k : α) : List α :=
  (edges.filter (fun e => decide (e.1 = k))).map (fun e => e.2)

theorem findAdj_eq_none_iff (ns : List (α × List α)) (k : α) :
    findAdj ns k = none ↔ k ∉ nodeKeys ns := by
  induction ns with
  | nil => simp [findAdj, nodeKeys]
  | cons p rest ih =>
    obtain ⟨k', vs⟩ := p
    by_cases h : k' = k
    · subst h; simp [findAdj, nodeKeys]
    · simp [findAdj, nodeKeys, h, Ne.symm h, ih]

theorem any_key_iff_mem (ns : List (α × List α)) (k : α) :
    (ns.any (fun p => p.1 = k)) = true ↔ k ∈ nodeKeys ns := by
  simp only [List.any_eq_true, decide_eq_true_eq, nodeKeys, List.mem_map]

theorem findAdj_append_single_of_some (ns : List (α × List α)) (k k' : α)
    (l : List α) (h : findAdj ns k' = some l) :
    findAdj (ns ++ [(k, [])]) k' = some l := by
  induction ns with
  | nil => simp [findAdj] at h
  | cons p rest ih =>
    obtain ⟨a, vs⟩ := p
    by_cases ha : a = k'
    · rw [findAdj, if_pos ha] at h
      simp only [List.cons_append, findAdj, if_pos ha]
      exact h
    · rw [findAdj, if_neg ha] at h
      simp only [List.cons_append, findAdj, if_neg ha]
      exact ih h

theorem findAdj_append_single_of_none (ns : List (α × List α)) (k k' : α)
    (h : findAdj ns k' = none) :
    findAdj (ns ++ [(k, [])]) k' = if k = k' then some [] else none := by
  induction ns with
  | nil => simp [findAdj]
  | cons p rest ih =>
    obtain ⟨a, vs⟩ := p
    by_cases ha : a = k'
    · rw [findAdj, if_pos ha] at h
      exact absurd h (by simp)
    · rw [findAdj, if_neg ha] at h
      simp only [List.cons_append, findAdj, if_neg ha]
      exact ih h

theorem findAdj_addNode (ns : List (α × List α)) (k k' : α) :
    findAdj (addNode ns k) k' =
      if k' = k then some ((findAdj ns k).getD []) else findAdj ns k' := by
  unfold addNode
  by_cases hin : (ns.any (fun p => p.1 = k)) = true
  · rw [if_pos hin]
    rcases hfa : findAdj ns k with _ | l
    · exact absurd ((findAdj_eq_none_iff ns k).1 hfa) (by
        intro hc; exact hc ((any_key_iff_mem ns k).1 hin))
    · by_cases h : k' = k
      · subst h; simp [hfa]
      · rw [if_neg h]
  · rw [if_neg hin]
    have hnone : findAdj ns k = none := by
      rw [findAdj_eq_none_iff]
      intro hmem
      exact hin ((any_key_iff_mem ns k).2 hmem)
    by_cases h : k' = k
    · subst h
      rw [findAdj_append_single_of_none ns k' k' hnone, if_pos rfl, hnone]
      simp
    · rcases hfa : findAdj ns k' with _ | l
      · rw [findAdj_append_single_of_none ns k k' hfa, if_neg h,
          if_neg (fun hc => h hc.symm)]
      · rw [findAdj_append_single_of_some ns k k' l hfa, if_neg h]

theorem findAdj_addVert (ns : List (α × List α)) (f t k : α) :
    findAdj (addVert ns f t) k =
      if k = f then (findAdj ns f).map (fun l => l ++ [t]) else findAdj ns k := by
  induction ns with
  | nil =>
    by_cases h : k = f <;> simp [addVert, findAdj, h]
  | cons p rest ih =>
    obtain ⟨a, vs⟩ := p
    by_cases haf : a = f
    · subst haf
      by_cases hk : k = a
      · subst hk; simp [addVert, findAdj]
      · simp [addVert, findAdj, hk, Ne.symm hk]
    · by_cases hk : k = a
      · subst hk
        simp [addVert, findAdj, haf, fun hc : k = f => haf (hc ▸ rfl)]
      · simp [addVert, findAdj, haf, Ne.symm hk, ih]

theorem findAdj_addEdgeStep (ns : List (α × List α)) (a b k : α) :
    findAdj (addEdgeStep ns (a, b)) k =
      if k = a then some ((findAdj ns a).getD [] ++ [b])
      else if k = b then some ((findAdj ns b).getD [])
      else findAdj ns k := by
  unfold addEdgeStep
  rw [findAdj_addVert]
  by_cases hka : k = a
  · subst hka
    by_cases hkb : k = b
    · subst hkb; simp [findAdj_addNode]
    · simp [findAdj_addNode, hkb]
  · by_cases hkb : k = b
    · subst hkb; simp [findAdj_addNode, hka]
    · simp [findAdj_addNode, hka, hkb]

theorem mem_flatEdges_iff (es : List (α × α)) (k : α) :
    k ∈ flatEdges es ↔ ∃ e ∈ es, e.1 = k ∨ e.2 = k := by
  simp only [flatEdges, List.mem_flatten, List.mem_map]
  constructor
  · rintro ⟨l, ⟨e, he, rfl⟩, hk⟩
    exact ⟨e, he, by simpa [eq_comm] using hk⟩
  · rintro ⟨e, he, h⟩
    exact ⟨[e.1, e.2], ⟨e, he, rfl⟩, by simpa [eq_comm] using h⟩

theorem outsOf_eq_nil_of_not_mem (es : List (α × α)) (k : α)
    (h : k ∉ flatEdges es) : outsOf es k = [] := by
  unfold outsOf
  have hf : List.filter (fun e => decide (e.1 = k)) es = [] := by
    rw [List.filter_eq_nil_iff]
    intro e he
    simp only [decide_eq_true_eq]
    intro hc
    exact h ((mem_flatEdges_iff es k).2 ⟨e, he, Or.inl hc⟩)
  rw [hf, List.map_nil]

theorem foldl_addEdgeStep_findAdj (es : List (α × α)) :
    ∀ (ns : List (α × List α)) (k : α),
      findAdj (es.foldl addEdgeStep ns) k =
        if k ∈ flatEdges es then some ((findAdj ns k).getD [] ++ outsOf es k)
        else findAdj ns k := by
  induction es with
  | nil => intro ns k; simp [flatEdges]
  | cons e rest ih =>
    intro ns k
    obtain ⟨a, b⟩ := e
    rw [List.foldl_cons, ih]
    have hflat : flatEdges ((a, b) :: rest) = a :: b :: flatEdges rest := by
      simp [flatEdges]
    rw [hflat, findAdj_addEdgeStep]
    by_cases hka : k = a
    · subst hka
      have houts : outsOf ((k, b) :: rest) k = b :: outsOf rest k := by
        simp [outsOf, List.filter_cons]
      rw [houts]
      by_cases hmem : k ∈ flatEdges rest
      · simp [hmem, List.append_assoc]
      · simp [hmem, outsOf_eq_nil_of_not_mem rest k hmem]
    · by_cases hkb : k = b
      · subst hkb
        have houts : outsOf ((a, k) :: rest) k = outsOf rest k := by
          simp [outsOf, List.filter_cons, Ne.symm hka]
        rw [houts]
        by_cases hmem : k ∈ flatEdges rest
        · simp [hmem, hka]
        · simp [hmem, hka, outsOf_eq_nil_of_not_mem rest k hmem]
      · have houts : outsOf ((a, b) :: rest) k = outsOf rest k := by
          simp [outsOf, List.filter_cons, Ne.symm hka]
        rw [houts]
        by_cases hmem : k ∈ flatEdges rest
        · simp [hmem, hka, hkb]
        · simp [hmem, hka, hkb]

theorem findAdj_buildNodes (es : List (α × α)) (k : α) :
    findAdj (buildNodes es) k =
      if k ∈ flatEdges es then some (outsOf es k) else none := by
  rw [buildNodes, foldl_addEdgeStep_findAdj]
  simp [findAdj]

theorem mem_nodeKeys_buildNodes (es : List (α × α)) (k : α) :
    k ∈ nodeKeys (buildNodes es) ↔ k ∈ flatEdges es := by
  rw [← not_iff_not, ← findAdj_eq_none_iff, findAdj_buildNodes]
  by_cases h : k ∈ flatEdges es <;> simp [h]

theorem adjL_buildNodes (es : List (α × α)) (k : α) :
    adjL (buildNodes es) k = if k ∈ flatEdges es then outsOf es k else [] := by
  rw [adjL, findAdj_buildNodes]
  by_cases h : k ∈ flatEdges es <;> simp [h]

theorem mem_outsOf_iff (es : List (α × α)) (k i : α) :
    i ∈ outsOf es k ↔ (k, i) ∈ es := by
  simp only [outsOf, List.mem_map, List.mem_filter, decide_eq_true_eq]
  constructor
  · rintro ⟨⟨a, b⟩, ⟨he, rfl⟩, rfl⟩
    exact he
  · intro h
    exact ⟨(k, i), ⟨h, rfl⟩, rfl⟩

theorem mem_adjL_buildNodes_iff (es : List (α × α)) (k i : α) :
    i ∈ adjL (buildNodes es) k ↔ (k, i) ∈ es := by
  rw [adjL_buildNodes]
  by_cases h : k ∈ flatEdges es
  · rw [if_pos h, mem_outsOf_iff]
  · rw [if_neg h]
    simp only [List.not_mem_nil, false_iff]
    intro hc
    exact h ((mem_flatEdges_iff es k).2 ⟨(k, i), hc, Or.inl rfl⟩)

theorem nodeKeys_addNode (ns : List (α × List α)) (k : α) :
    nodeKeys (addNode ns k) = if k ∈ nodeKeys ns then nodeKeys ns else nodeKeys ns ++ [k] := by
  unfold addNode
  by_cases h : (ns.any (fun p => p.1 = k)) = true
  · rw [if_pos h, if_pos ((any_key_iff_mem ns k).1 h)]
  · rw [if_neg h, if_neg (fun hmem => h ((any_key_iff_mem ns k).2 hmem))]
    simp [nodeKeys]

theorem nodeKeys_addVert (ns : List (α × List α)) (f t : α) :
    nodeKeys (addVert ns f t) = nodeKeys ns := by
  induction ns with
  | nil => simp [addVert]
  | cons p rest ih =>
    obtain ⟨a, vs⟩ := p
    by_cases h : a = f <;> simp [addVert, nodeKeys, h] at ih ⊢ <;> exact ih

theorem nodeKeys_buildNodes_nodup (es : List (α × α)) :
    (nodeKeys (buildNodes es)).Nodup := by
  suffices h : ∀ ns : List (α × List α),
      (nodeKeys ns).Nodup → (nodeKeys (es.foldl addEdgeStep ns)).Nodup by
    exact h [] (by simp [nodeKeys])
  induction es with
  | nil => intro ns h; simpa using h
  | cons e rest ih =>
    intro ns h
    rw [List.foldl_cons]
    apply ih
    unfold addEdgeStep
    rw [nodeKeys_addVert, nodeKeys_addNode, nodeKeys_addNode]
    by_cases h1 : e.1 ∈ nodeKeys ns
    · rw [if_pos h1]
      by_cases h2 : e.2 ∈ nodeKeys ns
      · rwa [if_pos h2]
      · rw [if_neg h2]
        simp [List.nodup_append, h, h2]
    · rw [if_neg h1]
      by_cases h2 : e.2 ∈ nodeKeys ns ++ [e.1]
      · rw [if_pos h2]
        simp [List.nodup_append, h, h1]
      · rw [if_neg h2]
        simp only [List.mem_append, List.mem_singleton] at h2
        push_neg at h2
        simp [List.nodup_append, h, h1, h2.1, h2.2, Ne.symm h2.2]

/-- Every adjacency target of a node built from `es` is itself a node key. -/
theorem closed_buildNodes (es : List (α × α)) (k : α) (l : List α)
    (hfa : findAdj (buildNodes es) k = some l) :
    ∀ i ∈ l, i ∈ nodeKeys (buildNodes es) := by
  intro i hi
  rw [findAdj_buildNodes] at hfa
  by_cases h : k ∈ flatEdges es
  · rw [if_pos h] at hfa
    obtain rfl : outsOf es k = l := by injection hfa
    rw [mem_nodeKeys_buildNodes, mem_flatEdges_iff]
    exact ⟨(k, i), (mem_outsOf_iff es k i).1 hi, Or.inr rfl⟩
  · rw [if_neg h] at hfa
    exact absurd hfa (by simp)

/-! ## Invariants of the depth-first traversal -/

/-- Structural invariant of the traversal state: no duplicates in
`sorted` or `circular`, the two are disjoint, and both only contain
visited ids. -/
def Inv (st : St α) : Prop :=
  st.sorted.Nodup ∧ st.circular.Nodup ∧ (∀ x ∈ st.sorted, x ∉ st.circular) ∧
    (∀ x ∈ st.sorted, x ∈ st.visited) ∧ (∀ x ∈ st.circular, x ∈ st.visited)

/-- Every id on the current ancestor path has been marked visited but has
not yet reached its own final `sorted.push` (its `cb` body is still in
progress). -/
def Anc (anc : List α) (st : St α) : Prop :=
  ∀ a ∈ anc, a ∈ st.visited ∧ a ∉ st.sorted

/-- Completedness relative to the ancestor path: every visited id has
been classified into `sorted` or `circular`, except the ids whose bodies
are still on the stack. -/
def Comp (anc : List α) (st : St α) : Prop :=
  ∀ x ∈ st.visited, x ∈ st.sorted ∨ x ∈ st.circular ∨ x ∈ anc

/-- Everything one call of `cb` (or of the child loop) guarantees about
the state transformation, relative to its ancestor path. -/
def Step (nodes : List (α × List α)) (anc : List α) (st st' : St α) : Prop :=
  Inv st' ∧ Anc anc st' ∧
    (∀ x ∈ st.visited, x ∈ st'.visited) ∧
    (∀ x ∈ st'.visited, x ∈ st.visited ∨ x ∈ nodeKeys nodes) ∧
    (∃ s, st'.sorted = st.sorted ++ s) ∧
    (∃ c, st'.circular = st.circular ++ c) ∧
    (∀ x ∈ st'.sorted, x ∈ st.sorted ∨ x ∉ st.visited) ∧
    (Comp anc st → Comp anc st')

theorem Step.rfl {nodes : List (α × List α)} {anc : List α} {st : St α}
    (h1 : Inv st) (h2 : Anc anc st) : Step nodes anc st st :=
  ⟨h1, h2, fun _ h => h, fun x h => Or.inl h,
    ⟨[], (List.append_nil _).symm⟩, ⟨[], (List.append_nil _).symm⟩,
    fun x h => Or.inl h, fun h => h⟩

theorem Step.trans {nodes : List (α × List α)} {anc : List α} {st st' st'' : St α}
    (h1 : Step nodes anc st st') (h2 : Step nodes anc st' st'') :
    Step nodes anc st st'' := by
  obtain ⟨i1, a1, m1, u1, ⟨s1, hs1⟩, ⟨c1, hc1⟩, n1, p1⟩ := h1
  obtain ⟨i2, a2, m2, u2, ⟨s2, hs2⟩, ⟨c2, hc2⟩, n2, p2⟩ := h2
  refine ⟨i2, a2, fun x h => m2 x (m1 x h), ?_, ⟨s1 ++ s2, ?_⟩, ⟨c1 ++ c2, ?_⟩, ?_, fun h => p2 (p1 h)⟩
  · intro x h
    rcases u2 x h with h' | h'
    · exact u1 x h'
    · exact Or.inr h'
  · rw [hs2, hs1, List.append_assoc]
  · rw [hc2, hc1, List.append_assoc]
  · intro x h
    rcases n2 x h with h' | h'
    · exact n1 x h'
    · right
      intro hx
      exact h' (m1 x hx)

theorem pushCirc_visited (st : St α) (k : α) : (pushCirc st k).visited = st.visited := by
  unfold pushCirc
  by_cases h : k ∈ st.circular <;> simp [h]

theorem pushCirc_sorted (st : St α) (k : α) : (pushCirc st k).sorted = st.sorted := by
  unfold pushCirc
  by_cases h : k ∈ st.circular <;> simp [h]

theorem pushCirc_circular_append (st : St α) (k : α) :
    ∃ c, (pushCirc st k).circular = st.circular ++ c := by
  unfold pushCirc
  by_cases h : k ∈ st.circular
  · exact ⟨[], by simp [h]⟩
  · exact ⟨[k], by simp [h]⟩

theorem mem_pushCirc_circular (st : St α) (k x : α) :
    x ∈ (pushCirc st k).circular ↔ x ∈ st.circular ∨ x = k := by
  unfold pushCirc
  by_cases h : k ∈ st.circular
  · simp only [if_pos h]
    constructor
    · exact Or.inl
    · rintro (hx | rfl)
      · exact hx
      · exact h
  · simp [h]

/-- `pushCirc` of an id that is visited but not yet sorted preserves the
structural invariant and the ancestor-path property. -/
theorem pushCirc_step (nodes : List (α × List α)) (anc : List α) (st : St α) (k : α)
    (hv : k ∈ st.visited) (hs : k ∉ st.sorted)
    (h1 : Inv st) (h2 : Anc anc st) : Step nodes anc st (pushCirc st k) := by
  obtain ⟨nd_s, nd_c, dis, sv, cv⟩ := h1
  refine ⟨⟨?_, ?_, ?_, ?_, ?_⟩, ?_, ?_, ?_, ⟨[], ?_⟩, pushCirc_circular_append st k, ?_, ?_⟩
  · rw [pushCirc_sorted]; exact nd_s
  · unfold pushCirc
    by_cases h : k ∈ st.circular
    · simpa [h] using nd_c
    · simp only [if_neg h]
      exact List.Nodup.append nd_c (List.nodup_singleton k)
        (by simpa using fun hk => h hk)
  · intro x hx
    rw [pushCirc_sorted] at hx
    rw [mem_pushCirc_circular]
    rintro (hc | rfl)
    · exact dis x hx hc
    · exact hs hx
  · intro x hx
    rw [pushCirc_sorted] at hx
    rw [pushCirc_visited]
    exact sv x hx
  · intro x hx
    rw [pushCirc_visited]
    rcases (mem_pushCirc_circular st k x).1 hx with hc | rfl
    · exact cv x hc
    · exact hv
  · intro a ha
    rw [pushCirc_visited, pushCirc_sorted]
    exact h2 a ha
  · intro x hx
    rw [pushCirc_visited]; exact hx
  · intro x hx
    rw [pushCirc_visited] at hx
    exact Or.inl hx
  · rw [pushCirc_sorted, List.append_nil]
  · intro x hx
    rw [pushCirc_sorted] at hx
    exact Or.inl hx
  · intro h x hx
    rw [pushCirc_visited] at hx
    rw [pushCirc_sorted]
    rcases h x hx with h' | h' | h'
    · exact Or.inl h'
    · refine Or.inr (Or.inl ?_)
      rw [mem_pushCirc_circular]
      exact Or.inl h'
    · exact Or.inr (Or.inr h')

theorem mem_nodeKeys_of_findAdj {nodes : List (α × List α)} {key : α} {l : List α}
    (h : findAdj nodes key = some l) : key ∈ nodeKeys nodes := by
  by_contra hc
  rw [(findAdj_eq_none_iff nodes key).2 hc] at h
  cases h

theorem cbF_zero_eq (nodes : List (α × List α)) (key : α) (anc : List α) (st : St α) :
    cbF nodes 0 key anc st = .error .fuelExhausted := rfl

theorem cbF_succ_eq (nodes : List (α × List α)) (f : Nat) (key : α) (anc : List α)
    (st : St α) :
    cbF nodes (f + 1) key anc st =
      match findAdj nodes key with
      | none => .error (.missingNode key)
      | some verts =>
        if key ∈ st.visited then .ok st
        else
          match cbVertsG nodes (cbF nodes f) key (anc ++ [key]) verts
              ⟨key :: st.visited, st.sorted, st.circular⟩ with
          | .error e => .error e
          | .ok st2 =>
            .ok (if key ∈ st2.circular then st2
                 else ⟨st2.visited, st2.sorted ++ [key], st2.circular⟩) := rfl

theorem cbVertsG_nil_eq (nodes : List (α × List α))
    (g : α → List α → St α → Except (Err α) (St α)) (key : α) (anc : List α) (st : St α) :
    cbVertsG nodes g key anc [] st = .ok st := rfl

theorem cbVertsG_cons_eq (nodes : List (α × List α))
    (g : α → List α → St α → Except (Err α) (St α)) (key : α) (anc : List α)
    (i : α) (rest : List α) (st : St α) :
    cbVertsG nodes g key anc (i :: rest) st =
      match g i anc (if i ∈ anc then
          pushCirc (if i ∈ adjL nodes key then pushCirc st key else st) i
        else st) with
      | .error e => .error e
      | .ok st2 => cbVertsG nodes g key anc rest st2 := rfl

/-- The circular-marking step of the child loop preserves the
invariants (both ids that may be pushed lie on the ancestor path). -/
theorem circMark_step (nodes : List (α × List α)) (anc : List α) (st : St α)
    (key i : α) (hk : key ∈ anc) (h1 : Inv st) (h2 : Anc anc st) :
    Step nodes anc st
      (if i ∈ anc then pushCirc (if i ∈ adjL nodes key then pushCirc st key else st) i
       else st) := by
  by_cases hia : i ∈ anc
  · rw [if_pos hia]
    have hkv := h2 key hk
    have hstep1 : Step nodes anc st (if i ∈ adjL nodes key then pushCirc st key else st) := by
      by_cases hadj : i ∈ adjL nodes key
      · rw [if_pos hadj]
        exact pushCirc_step nodes anc st key hkv.1 hkv.2 h1 h2
      · rw [if_neg hadj]
        exact Step.rfl h1 h2
    refine Step.trans hstep1 ?_
    have hiv := hstep1.2.1 i hia
    exact pushCirc_step nodes anc _ i hiv.1 hiv.2 hstep1.1 hstep1.2.1
  · rw [if_neg hia]
    exact Step.rfl h1 h2

/-- What one successful `cb` call guarantees. -/
def CbFInvP (nodes : List (α × List α)) (f : Nat) : Prop :=
  ∀ key anc st st', cbF nodes f key anc st = .ok st' →
    Inv st → Anc anc st →
    Step nodes anc st st' ∧ key ∈ st'.visited

/-- What one successful run of the child loop guarantees. -/
def CbVertsInvP (nodes : List (α × List α)) (f : Nat) : Prop :=
  ∀ l key anc st st', cbVertsG nodes (cbF nodes f) key anc l st = .ok st' →
    key ∈ anc → Inv st → Anc anc st →
    Step nodes anc st st'

theorem cb_inv_all (nodes : List (α × List α)) :
    ∀ f, CbFInvP nodes f ∧ CbVertsInvP nodes f := by
  intro f
  induction f with
  | zero =>
    constructor
    · intro key anc st st' heq
      rw [cbF_zero_eq] at heq
      cases heq
    · intro l
      cases l with
      | nil =>
        intro key anc st st' heq hk h1 h2
        rw [cbVertsG_nil_eq] at heq
        cases heq
        exact Step.rfl h1 h2
      | cons i rest =>
        intro key anc st st' heq hk h1 h2
        rw [cbVertsG_cons_eq] at heq
        simp only [cbF_zero_eq] at heq
        exact (Except.noConfusion heq)
  | succ f ih =>
    obtain ⟨ihF, ihV⟩ := ih
    have hF : CbFInvP nodes (f + 1) := by
      intro key anc st st' heq h1 h2
      rw [cbF_succ_eq] at heq
      cases hfa : findAdj nodes key with
      | none =>
        simp only [hfa] at heq
        exact (Except.noConfusion heq)
      | some verts =>
        simp only [hfa] at heq
        have hkeymem : key ∈ nodeKeys nodes := mem_nodeKeys_of_findAdj hfa
        by_cases hv : key ∈ st.visited
        · rw [if_pos hv] at heq
          cases heq
          exact ⟨Step.rfl h1 h2, hv⟩
        · rw [if_neg hv] at heq
          cases hrec : cbVertsG nodes (cbF nodes f) key (anc ++ [key]) verts
              ⟨key :: st.visited, st.sorted, st.circular⟩ with
          | error e =>
            simp only [hrec] at heq
            exact (Except.noConfusion heq)
          | ok st2 =>
            simp only [hrec] at heq
            have h1' : Inv (⟨key :: st.visited, st.sorted, st.circular⟩ : St α) := by
              obtain ⟨a, b, c, d, e⟩ := h1
              exact ⟨a, b, c, fun x hx => List.mem_cons_of_mem _ (d x hx),
                fun x hx => List.mem_cons_of_mem _ (e x hx)⟩
            have h2' : Anc (anc ++ [key]) (⟨key :: st.visited, st.sorted, st.circular⟩ : St α) := by
              intro a ha
              rcases List.mem_append.1 ha with ha | ha
              · obtain ⟨hav, has⟩ := h2 a ha
                exact ⟨List.mem_cons_of_mem _ hav, has⟩
              · rw [List.mem_singleton] at ha
                subst ha
                refine ⟨List.mem_cons_self _ _, fun hc => hv (h1.2.2.2.1 a hc)⟩
            have hstep2 := ihV verts key (anc ++ [key]) _ st2 hrec
              (by simp) h1' h2'
            obtain ⟨hi2, ha2, hm2, hu2, ⟨s2, hs2⟩, ⟨c2, hc2⟩, hn2, hp2⟩ := hstep2
            have hkv2 : key ∈ st2.visited := hm2 key (List.mem_cons_self _ _)
            have hknots : key ∉ st2.sorted := by
              intro hc
              rcases hn2 key hc with hc' | hc'
              · exact hv (h1.2.2.2.1 key hc')
              · exact hc' (List.mem_cons_self _ _)
            have hcompkey : Comp anc st → Comp (anc ++ [key])
                (⟨key :: st.visited, st.sorted, st.circular⟩ : St α) := by
              intro hcomp x hx
              rcases List.mem_cons.1 hx with rfl | hx
              · exact Or.inr (Or.inr (by simp))
              · rcases hcomp x hx with h' | h' | h'
                · exact Or.inl h'
                · exact Or.inr (Or.inl h')
                · exact Or.inr (Or.inr (List.mem_append_left _ h'))
            have hmono : ∀ x ∈ st.visited, x ∈ st2.visited :=
              fun x hx => hm2 x (List.mem_cons_of_mem _ hx)
            have hupper : ∀ x ∈ st2.visited, x ∈ st.visited ∨ x ∈ nodeKeys nodes := by
              intro x hx
              rcases hu2 x hx with hx' | hx'
              · rcases List.mem_cons.1 hx' with rfl | hx'
                · exact Or.inr hkeymem
                · exact Or.inl hx'
              · exact Or.inr hx'
            have hnew : ∀ x ∈ st2.sorted, x ∈ st.sorted ∨ x ∉ st.visited := by
              intro x hx
              rcases hn2 x hx with hx' | hx'
              · exact Or.inl hx'
              · exact Or.inr (fun hc => hx' (List.mem_cons_of_mem _ hc))
            by_cases hkc : key ∈ st2.circular
            · rw [if_pos hkc] at heq
              cases heq
              refine ⟨⟨hi2, ?_, hmono, hupper, ⟨s2, hs2⟩, ⟨c2, hc2⟩, hnew, ?_⟩, hkv2⟩
              · intro a ha
                exact ha2 a (List.mem_append_left _ ha)
              · intro hcomp x hx
                rcases hp2 (hcompkey hcomp) x hx with h' | h' | h'
                · exact Or.inl h'
                · exact Or.inr (Or.inl h')
                · rcases List.mem_append.1 h' with h' | h'
                  · exact Or.inr (Or.inr h')
                  · rw [List.mem_singleton] at h'
                    subst h'
                    exact Or.inr (Or.inl hkc)
            · rw [if_neg hkc] at heq
              cases heq
              obtain ⟨nd2s, nd2c, dis2, sv2, cv2⟩ := hi2
              refine ⟨⟨⟨?_, nd2c, ?_, ?_, cv2⟩, ?_, hmono, hupper,
                ⟨s2 ++ [key], by rw [hs2, List.append_assoc]⟩,
                ⟨c2, hc2⟩, ?_, ?_⟩, hkv2⟩
              · exact List.Nodup.append nd2s (List.nodup_singleton key)
                  (fun x hx hk => hknots ((List.mem_singleton.1 hk) ▸ hx))
              · intro x hx
                rcases List.mem_append.1 hx with hx | hx
                · exact dis2 x hx
                · rw [List.mem_singleton] at hx
                  subst hx
                  exact hkc
              · intro x hx
                rcases List.mem_append.1 hx with hx | hx
                · exact sv2 x hx
                · rw [List.mem_singleton] at hx
                  subst hx
                  exact hkv2
              · intro a ha
                obtain ⟨hav2, has2⟩ := ha2 a (List.mem_append_left _ ha)
                refine ⟨hav2, fun hc => ?_⟩
                rcases List.mem_append.1 hc with hc | hc
                · exact has2 hc
                · rw [List.mem_singleton] at hc
                  subst hc
                  exact hv ((h2 a ha).1)
              · intro x hx
                rcases List.mem_append.1 hx with hx | hx
                · exact hnew x hx
                · rw [List.mem_singleton] at hx
                  subst hx
                  exact Or.inr hv
              · intro hcomp x hx
                rcases hp2 (hcompkey hcomp) x hx with h' | h' | h'
                · exact Or.inl (List.mem_append_left _ h')
                · exact Or.inr (Or.inl h')
                · rcases List.mem_append.1 h' with h' | h'
                  · exact Or.inr (Or.inr h')
                  · rw [List.mem_singleton] at h'
                    subst h'
                    exact Or.inl (List.mem_append_right _ (List.mem_singleton_self _))
    refine ⟨hF, ?_⟩
    intro l
    induction l with
    | nil =>
      intro key anc st st' heq hk h1 h2
      rw [cbVertsG_nil_eq] at heq
      cases heq
      exact Step.rfl h1 h2
    | cons i rest ihl =>
      intro key anc st st' heq hk h1 h2
      rw [cbVertsG_cons_eq] at heq
      have hstep01 := circMark_step nodes anc st key i hk h1 h2
      cases hrec : cbF nodes (f + 1) i anc
          (if i ∈ anc then pushCirc (if i ∈ adjL nodes key then pushCirc st key else st) i
           else st) with
      | error e =>
        simp only [hrec] at heq
        exact (Except.noConfusion heq)
      | ok stm =>
        simp only [hrec] at heq
        have hstep1m := (hF i anc _ stm hrec hstep01.1 hstep01.2.1).1
        have hstepm' := ihl key anc stm st' heq hk hstep1m.1 hstep1m.2.1
        exact Step.trans (Step.trans hstep01 hstep1m) hstepm'

/-! ## Totality: the fuel `keys.length + 1` never runs out and every
node lookup during the traversal succeeds -/

/-- Number of node keys not yet visited; the termination measure of the
traversal. -/
def unvisitedCount (nodes : List (α × List α)) (st : St α) : Nat :=
  (nodeKeys nodes).countP (fun x => decide (x ∉ st.visited))

theorem unvisitedCount_le (nodes : List (α × List α)) (st st' : St α)
    (h : ∀ x ∈ st.visited, x ∈ st'.visited) :
    unvisitedCount nodes st' ≤ unvisitedCount nodes st := by
  apply List.countP_mono_left
  intro x _ hx
  simp only [decide_eq_true_eq] at hx ⊢
  exact fun hc => hx (h x hc)

theorem countP_unvisited_lt (keys v : List α) (k : α) (hk : k ∈ keys) (hv : k ∉ v) :
    keys.countP (fun x => decide (x ∉ k :: v)) < keys.countP (fun x => decide (x ∉ v)) := by
  induction keys with
  | nil => cases hk
  | cons a rest ih =>
    rw [List.countP_cons, List.countP_cons]
    by_cases hak : a = k
    · subst hak
      have h1 : (decide (a ∉ a :: v)) = false := by simp
      have h2 : (decide (a ∉ v)) = true := by simpa using hv
      rw [h1, h2]
      simp only [Bool.false_eq_true, if_false, if_true]
      have hle : rest.countP (fun x => decide (x ∉ a :: v)) ≤
          rest.countP (fun x => decide (x ∉ v)) := by
        apply List.countP_mono_left
        intro x _ hx
        simp only [decide_eq_true_eq, List.mem_cons] at hx ⊢
        exact fun hc => hx (Or.inr hc)
      omega
    · have hk' : k ∈ rest := by
        rcases List.mem_cons.1 hk with h | h
        · exact absurd h.symm hak
        · exact h
      have hlt := ih hk'
      have hsame : (if decide (a ∉ k :: v) = true then 1 else 0) ≤
          (if decide (a ∉ v) = true then 1 else 0) := by
        by_cases hav : a ∈ v
        · simp [hav]
        · simp [hav, hak]
      omega

theorem unvisitedCount_mark_lt (nodes : List (α × List α)) (st : St α) (k : α)
    (hk : k ∈ nodeKeys nodes) (hv : k ∉ st.visited) :
    unvisitedCount nodes (⟨k :: st.visited, st.sorted, st.circular⟩ : St α) <
      unvisitedCount nodes st :=
  countP_unvisited_lt (nodeKeys nodes) st.visited k hk hv

/-- Success of one `cb` call given sufficient fuel. -/
def CbFTotP (nodes : List (α × List α)) (f : Nat) : Prop :=
  ∀ key anc st, key ∈ nodeKeys nodes → unvisitedCount nodes st < f →
    ∃ st', cbF nodes f key anc st = .ok st' ∧ (∀ x ∈ st.visited, x ∈ st'.visited)

/-- Success of one child loop given sufficient fuel. -/
def CbVertsTotP (nodes : List (α × List α)) (f : Nat) : Prop :=
  ∀ l key anc st, (∀ i ∈ l, i ∈ nodeKeys nodes) → unvisitedCount nodes st < f →
    ∃ st', cbVertsG nodes (cbF nodes f) key anc l st = .ok st' ∧
      (∀ x ∈ st.visited, x ∈ st'.visited)

theorem cb_total_all (nodes : List (α × List α))
    (hclosed : ∀ k l, findAdj nodes k = some l → ∀ i ∈ l, i ∈ nodeKeys nodes) :
    ∀ f, CbFTotP nodes f ∧ CbVertsTotP nodes f := by
  intro f
  induction f with
  | zero =>
    constructor
    · intro key anc st _ hcount
      omega
    · intro l key anc st _ hcount
      omega
  | succ f ih =>
    obtain ⟨ihF, ihV⟩ := ih
    have hF : CbFTotP nodes (f + 1) := by
      intro key anc st hkey hcount
      rcases hfa : findAdj nodes key with _ | verts
      · exact absurd ((findAdj_eq_none_iff nodes key).1 hfa) (by simpa using hkey)
      · by_cases hv : key ∈ st.visited
        · refine ⟨st, ?_, fun x h => h⟩
          rw [cbF_succ_eq]
          simp only [hfa, if_pos hv]
        · have hlt := unvisitedCount_mark_lt nodes st key hkey hv
          obtain ⟨st2, hrec, hmono⟩ := ihV verts key (anc ++ [key])
            (⟨key :: st.visited, st.sorted, st.circular⟩ : St α)
            (fun i hi => hclosed key verts hfa i hi) (by omega)
          refine ⟨if key ∈ st2.circular then st2
              else ⟨st2.visited, st2.sorted ++ [key], st2.circular⟩, ?_, ?_⟩
          · rw [cbF_succ_eq]
            simp only [hfa, if_neg hv, hrec]
          · intro x hx
            have hx2 : x ∈ st2.visited := hmono x (List.mem_cons_of_mem _ hx)
            by_cases hkc : key ∈ st2.circular <;> simp [hkc, hx2]
    refine ⟨hF, ?_⟩
    intro l
    induction l with
    | nil =>
      intro key anc st _ hcount
      exact ⟨st, rfl, fun x h => h⟩
    | cons i rest ihl =>
      intro key anc st hmem hcount
      have hi : i ∈ nodeKeys nodes := hmem i (List.mem_cons_self _ _)
      set st1 := if i ∈ anc then
          pushCirc (if i ∈ adjL nodes key then pushCirc st key else st) i
        else st with hst1
      have hvis1 : st1.visited = st.visited := by
        rw [hst1]
        by_cases hia : i ∈ anc
        · rw [if_pos hia, pushCirc_visited]
          by_cases hadj : i ∈ adjL nodes key
          · rw [if_pos hadj, pushCirc_visited]
          · rw [if_neg hadj]
        · rw [if_neg hia]
      have hcount1 : unvisitedCount nodes st1 < f + 1 := by
        have : unvisitedCount nodes st1 = unvisitedCount nodes st := by
          unfold unvisitedCount
          rw [hvis1]
        omega
      obtain ⟨stm, hrec, hmono1⟩ := hF i anc st1 hi hcount1
      have hcountm : unvisitedCount nodes stm < f + 1 :=
        lt_of_le_of_lt (unvisitedCount_le nodes st1 stm hmono1) hcount1
      obtain ⟨st', hrec2, hmono2⟩ := ihl key anc stm
        (fun j hj => hmem j (List.mem_cons_of_mem _ hj)) hcountm
      refine ⟨st', ?_, ?_⟩
      · rw [cbVertsG_cons_eq, ← hst1]
        simp only [hrec, hrec2]
      · intro x hx
        refine hmono2 x (hmono1 x ?_)
        rw [hvis1]
        exact hx

/-! ## The driver loop -/

theorem runKeys_cons_eq (nodes : List (α × List α)) (f : Nat) (k : α) (ks : List α)
    (st : St α) :
    runKeys nodes f (k :: ks) st =
      match cbF nodes f k [] st with
      | .error e => .error e
      | .ok st' => runKeys nodes f ks st' := rfl

theorem runKeys_ok (nodes : List (α × List α))
    (hclosed : ∀ k l, findAdj nodes k = some l → ∀ i ∈ l, i ∈ nodeKeys nodes)
    (ks : List α) (hks : ∀ k ∈ ks, k ∈ nodeKeys nodes) :
    ∀ st : St α, ∃ st',
      runKeys nodes ((nodeKeys nodes).length + 1) ks st = .ok st' := by
  induction ks with
  | nil => intro st; exact ⟨st, rfl⟩
  | cons k rest ih =>
    intro st
    have hcount : unvisitedCount nodes st < (nodeKeys nodes).length + 1 := by
      have := List.countP_le_length (l := nodeKeys nodes)
        (fun x => decide (x ∉ st.visited))
      unfold unvisitedCount
      omega
    obtain ⟨stm, hrec, _⟩ := (cb_total_all nodes hclosed ((nodeKeys nodes).length + 1)).1
      k [] st (hks k (List.mem_cons_self _ _)) hcount
    obtain ⟨st', hrec2⟩ := ih (fun j hj => hks j (List.mem_cons_of_mem _ hj)) stm
    refine ⟨st', ?_⟩
    rw [runKeys_cons_eq]
    simp only [hrec, hrec2]

theorem runKeys_step (nodes : List (α × List α)) (f : Nat) (ks : List α) :
    ∀ st st', runKeys nodes f ks st = .ok st' → Inv st →
      (Step nodes [] st st' ∧ ∀ k ∈ ks, k ∈ st'.visited) := by
  induction ks with
  | nil =>
    intro st st' heq h1
    cases heq
    exact ⟨Step.rfl h1 (fun a ha => absurd ha (List.not_mem_nil a)),
      fun k hk => absurd hk (List.not_mem_nil k)⟩
  | cons k rest ih =>
    intro st st' heq h1
    rw [runKeys_cons_eq] at heq
    cases hrec : cbF nodes f k [] st with
    | error e =>
      simp only [hrec] at heq
      exact (Except.noConfusion heq)
    | ok stm =>
      simp only [hrec] at heq
      obtain ⟨hstep1, hkv⟩ := (cb_inv_all nodes f).1 k [] st stm hrec h1
        (fun a ha => absurd ha (List.not_mem_nil a))
      obtain ⟨hstep2, hrest⟩ := ih stm st' heq hstep1.1
      refine ⟨Step.trans hstep1 hstep2, ?_⟩
      intro j hj
      rcases List.mem_cons.1 hj with rfl | hj
      · exact hstep2.2.2.1 j hkv
      · exact hrest j hj

/-- The initial traversal state satisfies the invariants. -/
theorem inv_init : Inv (⟨[], [], []⟩ : St α) := by
  refine ⟨List.nodup_nil, List.nodup_nil, ?_, ?_, ?_⟩ <;>
    exact fun x hx => absurd hx (List.not_mem_nil x)

/-- The traversal pipeline always succeeds: the chosen fuel is enough and
every node lookup hits an existing node. -/
theorem runTopoE_ok (edges : List (α × α)) :
    ∃ st, runTopoE (α := α) edges = .ok st := by
  obtain ⟨st, hst⟩ := runKeys_ok (buildNodes edges) (closed_buildNodes edges)
    (nodeKeys (buildNodes edges)) (fun k hk => hk) (⟨[], [], []⟩ : St α)
  exact ⟨st, hst⟩

/-- Everything the traversal run guarantees about its final state. -/
theorem runTopoE_spec (edges : List (α × α)) (st : St α)
    (h : runTopoE edges = .ok st) :
    Inv st ∧ (∀ x ∈ st.visited, x ∈ nodeKeys (buildNodes edges)) ∧
      (∀ k ∈ nodeKeys (buildNodes edges), k ∈ st.visited) ∧
      (∀ x ∈ st.visited, x ∈ st.sorted ∨ x ∈ st.circular) := by
  obtain ⟨hstep, hall⟩ := runKeys_step (buildNodes edges)
    ((nodeKeys (buildNodes edges)).length + 1) (nodeKeys (buildNodes edges))
    (⟨[], [], []⟩ : St α) st h inv_init
  obtain ⟨hi, _, _, hupper, _, _, _, hcomp⟩ := hstep
  refine ⟨hi, ?_, hall, ?_⟩
  · intro x hx
    rcases hupper x hx with hx' | hx'
    · exact absurd hx' (List.not_mem_nil x)
    · exact hx'
  · intro x hx
    have := hcomp (fun y hy => absurd hy (List.not_mem_nil y)) x hx
    rcases this with h' | h' | h'
    · exact Or.inl h'
    · exact Or.inr h'
    · exact absurd h' (List.not_mem_nil x)

/-! ## Acyclic graphs: the post-order append respects the edges -/

/-- The adjacency relation of the node table: `Rel nodes a b` holds when
`b` is on `a`'s adjacency list (`a` depends on `b`). -/
def Rel (nodes : List (α × List α)) (a b : α) : Prop :=
  b ∈ adjL nodes a

/-- The edge-respecting property of the `sorted` list: each sorted id's
dependencies are already in `sorted`, strictly earlier. -/
def GoodS (nodes : List (α × List α)) (st : St α) : Prop :=
  ∀ a ∈ st.sorted, ∀ b ∈ adjL nodes a,
    b ∈ st.sorted ∧ st.sorted.indexOf b < st.sorted.indexOf a

theorem indexOf_append_of_not_mem {a : α} :
    ∀ (l₁ l₂ : List α), a ∉ l₁ →
      List.indexOf a (l₁ ++ l₂) = l₁.length + List.indexOf a l₂ := by
  intro l₁
  induction l₁ with
  | nil => intro l₂ _; simp
  | cons b t ih =>
    intro l₂ h
    have hba : ¬b = a := fun hc => h (hc ▸ List.mem_cons_self _ _)
    have hbeq : (b == a) = false := by
      simp [hba]
    rw [List.cons_append, List.indexOf_cons, hbeq]
    simp only [cond_false]
    rw [ih l₂ (fun hc => h (List.mem_cons_of_mem _ hc))]
    simp only [List.length_cons]
    omega

/-- Any element of the strict prefix of a relation chain ending at `y`
reaches `y` through the relation. -/
theorem chain_append_singleton_transGen {R : α → α → Prop} :
    ∀ (l : List α) (y x : α), List.Chain' R (l ++ [y]) → x ∈ l →
      Relation.TransGen R x y := by
  intro l
  induction l with
  | nil => intro y x _ hx; cases hx
  | cons a rest ih =>
    intro y x hch hx
    rw [List.cons_append] at hch
    rcases List.mem_cons.1 hx with rfl | hx
    · cases rest with
      | nil =>
        simp only [List.nil_append] at hch
        exact Relation.TransGen.single ((List.chain'_cons.1 hch).1)
      | cons b rest' =>
        rw [List.cons_append] at hch
        have h1 := (List.chain'_cons.1 hch).1
        have h2 := (List.chain'_cons.1 hch).2
        exact Relation.TransGen.head h1
          (ih y b (by rw [List.cons_append]; exact h2) (List.mem_cons_self _ _))
    · cases rest with
      | nil => cases hx
      | cons b rest' =>
        rw [List.cons_append] at hch
        exact ih y x (by rw [List.cons_append]; exact (List.chain'_cons.1 hch).2) hx

/-- In an acyclic graph a child on the current ancestor path is
impossible: it would close a cycle. -/
theorem no_anc_hit {nodes : List (α × List α)}
    (hacy : ∀ x, ¬ Relation.TransGen (Rel nodes) x x)
    (anc : List α) (key i : α)
    (hch : List.Chain' (Rel nodes) (anc ++ [key]))
    (hadj : i ∈ adjL nodes key) (hmem : i ∈ anc ++ [key]) : False := by
  rcases List.mem_append.1 hmem with hmem | hmem
  · have h1 := chain_append_singleton_transGen anc key i hch hmem
    exact hacy i (Relation.TransGen.tail h1 hadj)
  · rw [List.mem_singleton] at hmem
    subst hmem
    exact hacy i (Relation.TransGen.single hadj)

/-- Under acyclicity, a `cb` call never marks anything circular and keeps
the `sorted` list edge-respecting. -/
def CbFAcycP (nodes : List (α × List α)) (f : Nat) : Prop :=
  ∀ key anc st st', cbF nodes f key anc st = .ok st' →
    List.Chain' (Rel nodes) (anc ++ [key]) →
    Inv st → Anc anc st → Comp anc st → st.circular = [] → GoodS nodes st →
    st'.circular = [] ∧ GoodS nodes st'

/-- The corresponding statement for the child loop. -/
def CbVertsAcycP (nodes : List (α × List α)) (f : Nat) : Prop :=
  ∀ l key anc₀ st st',
    cbVertsG nodes (cbF nodes f) key (anc₀ ++ [key]) l st = .ok st' →
    (∀ i ∈ l, i ∈ adjL nodes key) →
    List.Chain' (Rel nodes) (anc₀ ++ [key]) →
    Inv st → Anc (anc₀ ++ [key]) st → Comp (anc₀ ++ [key]) st →
    st.circular = [] → GoodS nodes st →
    st'.circular = [] ∧ GoodS nodes st' ∧ (∀ i ∈ l, i ∈ st'.visited)

theorem cb_acyc_all (nodes : List (α × List α))
    (hacy : ∀ x, ¬ Relation.TransGen (Rel nodes) x x) :
    ∀ f, CbFAcycP nodes f ∧ CbVertsAcycP nodes f := by
  intro f
  induction f with
  | zero =>
    constructor
    · intro key anc st st' heq
      rw [cbF_zero_eq] at heq
      cases heq
    · intro l
      cases l with
      | nil =>
        intro key anc₀ st st' heq _ _ _ _ _ hcirc hgood
        rw [cbVertsG_nil_eq] at heq
        cases heq
        exact ⟨hcirc, hgood, fun i hi => absurd hi (List.not_mem_nil i)⟩
      | cons i rest =>
        intro key anc₀ st st' heq _ _ _ _ _ _ _
        rw [cbVertsG_cons_eq] at heq
        simp only [cbF_zero_eq] at heq
        exact (Except.noConfusion heq)
  | succ f ih =>
    obtain ⟨ihF, ihV⟩ := ih
    have hF : CbFAcycP nodes (f + 1) := by
      intro key anc st st' heq hch h1 h2 hcomp hcirc hgood
      rw [cbF_succ_eq] at heq
      cases hfa : findAdj nodes key with
      | none =>
        simp only [hfa] at heq
        exact (Except.noConfusion heq)
      | some verts =>
        simp only [hfa] at heq
        by_cases hv : key ∈ st.visited
        · rw [if_pos hv] at heq
          cases heq
          exact ⟨hcirc, hgood⟩
        · rw [if_neg hv] at heq
          cases hrec : cbVertsG nodes (cbF nodes f) key (anc ++ [key]) verts
              ⟨key :: st.visited, st.sorted, st.circular⟩ with
          | error e =>
            simp only [hrec] at heq
            exact (Except.noConfusion heq)
          | ok st2 =>
            simp only [hrec] at heq
            have hverts : verts = adjL nodes key := by
              rw [adjL, hfa]
              rfl
            have h1' : Inv (⟨key :: st.visited, st.sorted, st.circular⟩ : St α) := by
              obtain ⟨a, b, c, d, e⟩ := h1
              exact ⟨a, b, c, fun x hx => List.mem_cons_of_mem _ (d x hx),
                fun x hx => List.mem_cons_of_mem _ (e x hx)⟩
            have h2' : Anc (anc ++ [key]) (⟨key :: st.visited, st.sorted, st.circular⟩ : St α) := by
              intro a ha
              rcases List.mem_append.1 ha with ha | ha
              · obtain ⟨hav, has⟩ := h2 a ha
                exact ⟨List.mem_cons_of_mem _ hav, has⟩
              · rw [List.mem_singleton] at ha
                subst ha
                exact ⟨List.mem_cons_self _ _, fun hc => hv (h1.2.2.2.1 a hc)⟩
            have hcomp' : Comp (anc ++ [key])
                (⟨key :: st.visited, st.sorted, st.circular⟩ : St α) := by
              intro x hx
              rcases List.mem_cons.1 hx with rfl | hx
              · exact Or.inr (Or.inr (by simp))
              · rcases hcomp x hx with h' | h' | h'
                · exact Or.inl h'
                · exact Or.inr (Or.inl h')
                · exact Or.inr (Or.inr (List.mem_append_left _ h'))
            obtain ⟨hcirc2, hgood2, hvis2⟩ := ihV verts key anc _ st2 hrec
              (fun i hi => hverts ▸ hi) hch h1' h2' hcomp' hcirc hgood
            have hstep2 := (cb_inv_all nodes f).2 verts key (anc ++ [key]) _ st2 hrec
              (by simp) h1' h2'
            obtain ⟨hi2, ha2, hm2, hu2, ⟨s2, hs2⟩, _, hn2, hp2⟩ := hstep2
            have hkc : key ∉ st2.circular := by
              rw [hcirc2]
              exact List.not_mem_nil key
            rw [if_neg hkc] at heq
            cases heq
            have hcomp2 : Comp (anc ++ [key]) st2 := hp2 hcomp'
            have hknots : key ∉ st2.sorted := by
              intro hc
              rcases hn2 key hc with hc' | hc'
              · exact hv (h1.2.2.2.1 key hc')
              · exact hc' (List.mem_cons_self _ _)
            refine ⟨hcirc2, ?_⟩
            intro a ha b hb
            rcases List.mem_append.1 ha with ha | ha
            · obtain ⟨hbs, hblt⟩ := hgood2 a ha b hb
              refine ⟨List.mem_append_left _ hbs, ?_⟩
              rw [List.indexOf_append_of_mem hbs, List.indexOf_append_of_mem ha]
              exact hblt
            · rw [List.mem_singleton] at ha
              subst ha
              have hbv : b ∈ st2.visited := hvis2 b (hverts ▸ hb)
              have hbs : b ∈ st2.sorted := by
                rcases hcomp2 b hbv with h' | h' | h'
                · exact h'
                · rw [hcirc2] at h'
                  cases h'
                · exact (no_anc_hit hacy anc a b hch hb h').elim
              refine ⟨List.mem_append_left _ hbs, ?_⟩
              rw [List.indexOf_append_of_mem hbs,
                indexOf_append_of_not_mem st2.sorted [a] hknots]
              have := (List.indexOf_lt_length (a := b) (l := st2.sorted)).2 hbs
              omega
    refine ⟨hF, ?_⟩
    intro l
    induction l with
    | nil =>
      intro key anc₀ st st' heq _ _ _ _ _ hcirc hgood
      rw [cbVertsG_nil_eq] at heq
      cases heq
      exact ⟨hcirc, hgood, fun i hi => absurd hi (List.not_mem_nil i)⟩
    | cons i rest ihl =>
      intro key anc₀ st st' heq hsub hch h1 h2 hcomp hcirc hgood
      rw [cbVertsG_cons_eq] at heq
      have hnia : i ∉ anc₀ ++ [key] := by
        intro hc
        exact no_anc_hit hacy anc₀ key i hch (hsub i (List.mem_cons_self _ _)) hc
      rw [if_neg hnia] at heq
      cases hrec : cbF nodes (f + 1) i (anc₀ ++ [key]) st with
      | error e =>
        simp only [hrec] at heq
        exact (Except.noConfusion heq)
      | ok stm =>
        simp only [hrec] at heq
        have hch' : List.Chain' (Rel nodes) ((anc₀ ++ [key]) ++ [i]) := by
          refine List.Chain'.append hch (List.chain'_singleton i) ?_
          intro x hx y hy
          rw [List.getLast?_concat] at hx
          rw [List.head?_cons] at hy
          cases hx
          cases hy
          exact hsub i (List.mem_cons_self _ _)
        obtain ⟨hcircm, hgoodm⟩ := hF i (anc₀ ++ [key]) st stm hrec hch' h1 h2 hcomp
          hcirc hgood
        obtain ⟨hstepm, hivm⟩ := (cb_inv_all nodes (f + 1)).1 i (anc₀ ++ [key]) st stm
          hrec h1 h2
        obtain ⟨him, ham, hmm, _, _, _, _, hpm⟩ := hstepm
        obtain ⟨hcirc', hgood', hvis'⟩ := ihl key anc₀ stm st' heq
          (fun j hj => hsub j (List.mem_cons_of_mem _ hj)) hch him ham (hpm hcomp)
          hcircm hgoodm
        refine ⟨hcirc', hgood', ?_⟩
        intro j hj
        rcases List.mem_cons.1 hj with rfl | hj
        · have hmono' := ((cb_inv_all nodes (f + 1)).2 rest key (anc₀ ++ [key]) stm st'
            heq (by simp) him ham).2.2.1
          exact hmono' j hivm
        · exact hvis' j hj

/-! ## The circular sort: a stable ascending sort by out-degree -/

theorem insertLen_perm (nodes : List (α × List α)) (x : α) (l : List α) :
    (insertLen nodes x l).Perm (x :: l) := by
  induction l with
  | nil => exact List.Perm.refl _
  | cons y ys ih =>
    by_cases h : outDeg nodes x < outDeg nodes y
    · rw [insertLen, if_pos h]
    · rw [insertLen, if_neg h]
      exact ((ih.cons y).trans (List.Perm.swap x y ys)).symm.symm

theorem mem_insertLen (nodes : List (α × List α)) (x z : α) (l : List α) :
    z ∈ insertLen nodes x l ↔ z = x ∨ z ∈ l := by
  rw [(insertLen_perm nodes x l).mem_iff, List.mem_cons]

theorem insertLen_pairwise (nodes : List (α × List α)) (x : α) :
    ∀ l : List α,
      List.Pairwise (fun a b => outDeg nodes a ≤ outDeg nodes b) l →
      List.Pairwise (fun a b => outDeg nodes a ≤ outDeg nodes b) (insertLen nodes x l) := by
  intro l
  induction l with
  | nil =>
    intro _
    simp [insertLen]
  | cons y ys ih =>
    intro hp
    rw [List.pairwise_cons] at hp
    obtain ⟨hy, hys⟩ := hp
    by_cases h : outDeg nodes x < outDeg nodes y
    · rw [insertLen, if_pos h]
      rw [List.pairwise_cons]
      refine ⟨?_, List.pairwise_cons.2 ⟨hy, hys⟩⟩
      intro z hz
      rcases List.mem_cons.1 hz with rfl | hz
      · exact Nat.le_of_lt h
      · exact Nat.le_trans (Nat.le_of_lt h) (hy z hz)
    · rw [insertLen, if_neg h]
      rw [List.pairwise_cons]
      refine ⟨?_, ih hys⟩
      intro z hz
      rcases (mem_insertLen nodes x z ys).1 hz with rfl | hz
      · exact Nat.le_of_not_lt h
      · exact hy z hz

theorem insertLen_filter_eq (nodes : List (α × List α)) (x : α) (d : Nat)
    (hx : outDeg nodes x = d) :
    ∀ l : List α,
      List.Pairwise (fun a b => outDeg nodes a ≤ outDeg nodes b) l →
      (insertLen nodes x l).filter (fun k => decide (outDeg nodes k = d)) =
        l.filter (fun k => decide (outDeg nodes k = d)) ++ [x] := by
  intro l
  induction l with
  | nil =>
    intro _
    simp [insertLen, List.filter, hx]
  | cons y ys ih =>
    intro hp
    rw [List.pairwise_cons] at hp
    obtain ⟨hy, hys⟩ := hp
    by_cases h : outDeg nodes x < outDeg nodes y
    · rw [insertLen, if_pos h]
      have hyd : ¬ outDeg nodes y = d := by omega
      have hzs : ∀ z ∈ ys, ¬ outDeg nodes z = d := by
        intro z hz
        have := hy z hz
        omega
      have hfy : (y :: ys).filter (fun k => decide (outDeg nodes k = d)) = [] := by
        rw [List.filter_eq_nil_iff]
        intro z hz
        simp only [decide_eq_true_eq]
        rcases List.mem_cons.1 hz with rfl | hz
        · exact hyd
        · exact hzs z hz
      rw [List.filter_cons, hfy]
      simp [hx]
    · rw [insertLen, if_neg h]
      rw [List.filter_cons, List.filter_cons, ih hys]
      by_cases hyd : outDeg nodes y = d
      · simp [hyd]
      · simp [hyd]

theorem insertLen_filter_ne (nodes : List (α × List α)) (x : α) (d : Nat)
    (hx : ¬ outDeg nodes x = d) :
    ∀ l : List α,
      (insertLen nodes x l).filter (fun k => decide (outDeg nodes k = d)) =
        l.filter (fun k => decide (outDeg nodes k = d)) := by
  intro l
  induction l with
  | nil => simp [insertLen, List.filter, hx]
  | cons y ys ih =>
    by_cases h : outDeg nodes x < outDeg nodes y
    · rw [insertLen, if_pos h, List.filter_cons]
      simp [hx]
    · rw [insertLen, if_neg h, List.filter_cons, List.filter_cons, ih]

/-- The fold that models `Object.keys(circular).sort(…)`, generalized
over the accumulator. -/
theorem sortCirc_go_perm (nodes : List (α × List α)) :
    ∀ (l acc : List α),
      (l.foldl (fun acc x => insertLen nodes x acc) acc).Perm (acc ++ l) := by
  intro l
  induction l with
  | nil => intro acc; simp
  | cons x xs ih =>
    intro acc
    rw [List.foldl_cons]
    refine (ih (insertLen nodes x acc)).trans ?_
    have h1 : (insertLen nodes x acc ++ xs).Perm ((x :: acc) ++ xs) :=
      (insertLen_perm nodes x acc).append_right xs
    refine h1.trans ?_
    rw [List.cons_append]
    exact (List.perm_middle).symm

theorem sortCirc_perm (nodes : List (α × List α)) (l : List α) :
    (sortCirc nodes l).Perm l := by
  have := sortCirc_go_perm nodes l []
  simpa [sortCirc] using this

theorem sortCirc_go_pairwise (nodes : List (α × List α)) :
    ∀ (l acc : List α),
      List.Pairwise (fun a b => outDeg nodes a ≤ outDeg nodes b) acc →
      List.Pairwise (fun a b => outDeg nodes a ≤ outDeg nodes b)
        (l.foldl (fun acc x => insertLen nodes x acc) acc) := by
  intro l
  induction l with
  | nil => intro acc h; simpa using h
  | cons x xs ih =>
    intro acc h
    rw [List.foldl_cons]
    exact ih _ (insertLen_pairwise nodes x acc h)

/-- The circular block is sorted by ascending out-degree. -/
theorem sortCirc_pairwise (nodes : List (α × List α)) (l : List α) :
    List.Pairwise (fun a b => outDeg nodes a ≤ outDeg nodes b) (sortCirc nodes l) :=
  sortCirc_go_pairwise nodes l [] List.Pairwise.nil

theorem sortCirc_go_filter (nodes : List (α × List α)) (d : Nat) :
    ∀ (l acc : List α),
      List.Pairwise (fun a b => outDeg nodes a ≤ outDeg nodes b) acc →
      (l.foldl (fun acc x => insertLen nodes x acc) acc).filter
          (fun k => decide (outDeg nodes k = d)) =
        acc.filter (fun k => decide (outDeg nodes k = d)) ++
          l.filter (fun k => decide (outDeg nodes k = d)) := by
  intro l
  induction l with
  | nil => intro acc _; simp
  | cons x xs ih =>
    intro acc h
    rw [List.foldl_cons, ih _ (insertLen_pairwise nodes x acc h), List.filter_cons]
    by_cases hx : outDeg nodes x = d
    · rw [insertLen_filter_eq nodes x d hx acc h]
      simp [hx]
    · rw [insertLen_filter_ne nodes x d hx acc]
      simp [hx]

/-- Stability of the circular sort: among keys of equal out-degree the
insertion (encounter) order is preserved. -/
theorem sortCirc_filter (nodes : List (α × List α)) (l : List α) (d : Nat) :
    (sortCirc nodes l).filter (fun k => decide (outDeg nodes k = d)) =
      l.filter (fun k => decide (outDeg nodes k = d)) := by
  have := sortCirc_go_filter nodes d l [] List.Pairwise.nil
  simpa [sortCirc] using this

theorem runKeys_acyc (nodes : List (α × List α))
    (hacy : ∀ x, ¬ Relation.TransGen (Rel nodes) x x) (f : Nat) (ks : List α) :
    ∀ st st', runKeys nodes f ks st = .ok st' →
      Inv st → Comp ([] : List α) st → st.circular = [] → GoodS nodes st →
      st'.circular = [] ∧ GoodS nodes st' := by
  induction ks with
  | nil =>
    intro st st' heq _ _ hcirc hgood
    cases heq
    exact ⟨hcirc, hgood⟩
  | cons k rest ih =>
    intro st st' heq h1 hcomp hcirc hgood
    rw [runKeys_cons_eq] at heq
    cases hrec : cbF nodes f k [] st with
    | error e =>
      simp only [hrec] at heq
      exact (Except.noConfusion heq)
    | ok stm =>
      simp only [hrec] at heq
      have hanc : Anc ([] : List α) st := fun a ha => absurd ha (List.not_mem_nil a)
      have hch : List.Chain' (Rel nodes) (([] : List α) ++ [k]) := by
        rw [List.nil_append]
        exact List.chain'_singleton k
      obtain ⟨hcircm, hgoodm⟩ := (cb_acyc_all nodes hacy f).1 k [] st stm hrec hch
        h1 hanc hcomp hcirc hgood
      obtain ⟨hstepm, _⟩ := (cb_inv_all nodes f).1 k [] st stm hrec h1 hanc
      exact ih stm st' heq hstepm.1 (hstepm.2.2.2.2.2.2.2 hcomp) hcircm hgoodm

/-- Under acyclicity the traversal produces an empty circular record and
an edge-respecting `sorted` list. -/
theorem runTopoE_acyc (edges : List (α × α))
    (hacy : ∀ x, ¬ Relation.TransGen (Rel (buildNodes edges)) x x)
    (st : St α) (h : runTopoE edges = .ok st) :
    st.circular = [] ∧ GoodS (buildNodes edges) st := by
  refine runKeys_acyc (buildNodes edges) hacy
    ((nodeKeys (buildNodes edges)).length + 1) (nodeKeys (buildNodes edges))
    (⟨[], [], []⟩ : St α) st h inv_init ?_ rfl ?_
  · intro x hx
    exact absurd hx (List.not_mem_nil x)
  · intro a ha
    exact absurd ha (List.not_mem_nil a)

/-! ## Characterization of the derived edge list -/

theorem mem_buildEdges (dirs : List α) (deps : α → α → Bool) (a b : α) :
    (a, b) ∈ buildEdges dirs deps ↔
      a ∈ dirs ∧ b ∈ dirs ∧ b ≠ a ∧ deps a b = true := by
  simp only [buildEdges, List.mem_flatten, List.mem_map, List.mem_filter]
  constructor
  · rintro ⟨l, ⟨dir, hdir, rfl⟩, hab⟩
    simp only [List.mem_map, List.mem_filter, Bool.and_eq_true, decide_eq_true_eq,
      Prod.mk.injEq] at hab
    obtain ⟨d, ⟨⟨hd, hne, hdep⟩, rfl, rfl⟩⟩ := hab
    exact ⟨hdir, hd, hne, hdep⟩
  · rintro ⟨ha, hb, hne, hdep⟩
    refine ⟨(dirs.filter (fun d => decide (d ≠ a) && deps a d)).map (fun d => (a, d)),
      ⟨a, ha, rfl⟩, ?_⟩
    simp only [List.mem_map, List.mem_filter, Bool.and_eq_true, decide_eq_true_eq,
      Prod.mk.injEq]
    exact ⟨b, by simp [hb, hne, hdep]⟩

theorem flatEdges_buildEdges_sub (dirs : List α) (deps : α → α → Bool) :
    ∀ x ∈ flatEdges (buildEdges dirs deps), x ∈ dirs := by
  intro x hx
  rw [mem_flatEdges_iff] at hx
  obtain ⟨e, he, hend⟩ := hx
  obtain ⟨a, b⟩ := e
  rw [mem_buildEdges] at he
  rcases hend with h | h
  · exact h ▸ he.1
  · exact h ▸ he.2.1

theorem buildEdges_singleton (x : α) (deps : α → α → Bool) :
    buildEdges [x] deps = [] := by
  simp [buildEdges, List.filter]

/-- Decidable equality for `Except`, used to evaluate the embedded sorter
on concrete inputs. -/
instance {ε σ : Type} [DecidableEq ε] [DecidableEq σ] : DecidableEq (Except ε σ) := fun x y =>
  match x, y with
  | .error a, .error b => decidable_of_iff (a = b) (by simp)
  | .ok a, .ok b => decidable_of_iff (a = b) (by simp)
  | .error _, .ok _ => .isFalse (fun hc => Except.noConfusion hc)
  | .ok _, .error _ => .isFalse (fun hc => Except.noConfusion hc)

/-! ## The claims -/

/-- C5: for every singleton input `[x]`, `topoSort` returns `[x]`
unchanged (lines 452-454 short-circuit before any edge derivation), and
the result does not depend on the dependency lookup at all: any two
lookups give the same result on a singleton, so the lookup (the manifest
read) is never consulted. -/
theorem topoSort_singleton (x : α) (deps : α → α → Bool) :
    topoSort [x] deps = .ok [x] ∧
      ∀ deps' : α → α → Bool, topoSort [x] deps = topoSort [x] deps' := by
  constructor
  · rw [topoSort, if_pos (by simp)]
  · intro deps'
    rw [topoSort, topoSort, if_pos (by simp), if_pos (by simp)]

/-- C9: on the empty input (left unspecified by the spec), `topoSort`
raises no error and returns the empty sequence; the singleton
short-circuit is skipped and `sorted`, `circularSorted` and `standAlones`
are all empty. -/
theorem topoSort_empty (deps : α → α → Bool) :
    topoSortParts ([] : List α) deps = .ok ([], [], []) ∧
      topoSort ([] : List α) deps = .ok [] := by
  constructor
  · rfl
  · rfl

/-- C7: `topoSort` terminates on every input, cyclic graphs included:
the embedded traversal (whose fuel decreases only when a node body runs,
and each node body runs at most once thanks to the visited check) always
returns a result. -/
theorem topoSort_total (dirs : List α) (deps : α → α → Bool) :
    ∃ out, topoSort dirs deps = .ok out := by
  by_cases h : dirs.length = 1
  · exact ⟨dirs, by rw [topoSort, if_pos h]⟩
  · obtain ⟨st, hst⟩ := runTopoE_ok (buildEdges dirs deps)
    refine ⟨st.sorted ++ sortCirc (buildNodes (buildEdges dirs deps)) st.circular ++
      dirs.filter (fun d => decide (d ∉ flatEdges (buildEdges dirs deps))), ?_⟩
    rw [topoSort, if_neg h, topoSortParts, topoSortPartsE, hst]
    rfl

/-- C10: the node-table accesses of the traversal are always defined:
the run never fails with `missingNode`, because every key `cb` is invoked
on (a node-table key from the outer loop, or an adjacency-list entry) has
a node — edge construction registers both endpoints of every edge. -/
theorem runTopo_never_missing (dirs : List α) (deps : α → α → Bool) (k : α) :
    runTopo dirs deps ≠ .error (.missingNode k) := by
  obtain ⟨st, hst⟩ := runTopoE_ok (buildEdges dirs deps)
  rw [runTopo, hst]
  intro hc
  cases hc

/-- C8: `topoSort` is deterministic in its observable inputs: two runs
on the same id sequence whose dependency lookups return the same answers
on those ids produce identical output (the embedding is pure, mirroring
that the JS function builds all its state afresh per call). -/
theorem topoSort_deps_ext (dirs : List α) (deps1 deps2 : α → α → Bool)
    (h : ∀ a ∈ dirs, ∀ b ∈ dirs, deps1 a b = deps2 a b) :
    topoSort dirs deps1 = topoSort dirs deps2 := by
  have hedges : buildEdges dirs deps1 = buildEdges dirs deps2 := by
    unfold buildEdges
    congr 1
    apply List.map_congr_left
    intro dir hdir
    congr 1
    apply List.filter_congr
    intro d hd
    rw [h dir hdir d hd]
  unfold topoSort topoSortParts
  rw [hedges]

/-- Witness for C8 at a concrete input: two lookups that differ outside
the input set but agree on it give identical results. -/
theorem topoSort_deps_ext_witness :
    topoSort [1, 2, 3] (fun a b => a == 1 && b == 2) =
      topoSort [1, 2, 3] (fun a b => (a == 1 && b == 2) || (a == 9 && b == 9)) :=
  topoSort_deps_ext [1, 2, 3] _ _ (by decide)

/-- C1: for every non-empty, duplicate-free input sequence and every
dependency lookup, `topoSort` succeeds and returns a permutation of the
input — every input id appears exactly once, regardless of cycles. -/
theorem topoSort_perm_input (dirs : List α) (deps : α → α → Bool)
    (hne : dirs ≠ []) (hnd : dirs.Nodup) :
    ∃ out, topoSort dirs deps = .ok out ∧ out.Perm dirs := by
  by_cases h : dirs.length = 1
  · exact ⟨dirs, by rw [topoSort, if_pos h], List.Perm.refl dirs⟩
  · obtain ⟨st, hst⟩ := runTopoE_ok (buildEdges dirs deps)
    obtain ⟨hinv, hvk, hkv, hclass⟩ := runTopoE_spec (buildEdges dirs deps) st hst
    refine ⟨st.sorted ++ sortCirc (buildNodes (buildEdges dirs deps)) st.circular ++
      dirs.filter (fun d => decide (d ∉ flatEdges (buildEdges dirs deps))), ?_, ?_⟩
    · rw [topoSort, if_neg h, topoSortParts, topoSortPartsE, hst]
      rfl
    · have hSC_nodup : (st.sorted ++ st.circular).Nodup := by
        obtain ⟨nds, ndc, dis, _, _⟩ := hinv
        exact List.Nodup.append nds ndc (fun x hx hc => dis x hx hc)
      have hkeys_nodup := nodeKeys_buildNodes_nodup (buildEdges dirs deps)
      have hmemSC : ∀ x, x ∈ st.sorted ++ st.circular ↔
          x ∈ nodeKeys (buildNodes (buildEdges dirs deps)) := by
        intro x
        constructor
        · intro hx
          rcases List.mem_append.1 hx with hx | hx
          · exact hvk x (hinv.2.2.2.1 x hx)
          · exact hvk x (hinv.2.2.2.2 x hx)
        · intro hx
          rcases hclass x (hkv x hx) with h' | h'
          · exact List.mem_append_left _ h'
          · exact List.mem_append_right _ h'
      have hpermSC : (st.sorted ++ st.circular).Perm
          (nodeKeys (buildNodes (buildEdges dirs deps))) :=
        List.perm_of_nodup_nodup_toFinset_eq hSC_nodup hkeys_nodup
          (Finset.ext (fun x => by
            simp only [List.mem_toFinset]
            exact hmemSC x))
      have ht_nodup : (dirs.filter
          (fun d => decide (d ∉ flatEdges (buildEdges dirs deps)))).Nodup :=
        hnd.filter _
      have hdisj : ∀ x, x ∈ nodeKeys (buildNodes (buildEdges dirs deps)) →
          x ∈ dirs.filter (fun d => decide (d ∉ flatEdges (buildEdges dirs deps))) →
          False := by
        intro x hx hxt
        obtain ⟨_, hxf⟩ := List.mem_filter.1 hxt
        rw [decide_eq_true_eq] at hxf
        exact hxf ((mem_nodeKeys_buildNodes _ x).1 hx)
      have hKT_nodup : (nodeKeys (buildNodes (buildEdges dirs deps)) ++
          dirs.filter (fun d => decide (d ∉ flatEdges (buildEdges dirs deps)))).Nodup :=
        List.Nodup.append hkeys_nodup ht_nodup (fun x hx hc => hdisj x hx hc)
      have hmemKT : ∀ x, x ∈ nodeKeys (buildNodes (buildEdges dirs deps)) ++
          dirs.filter (fun d => decide (d ∉ flatEdges (buildEdges dirs deps))) ↔
          x ∈ dirs := by
        intro x
        constructor
        · intro hx
          rcases List.mem_append.1 hx with hx | hx
          · exact flatEdges_buildEdges_sub dirs deps x
              ((mem_nodeKeys_buildNodes _ x).1 hx)
          · exact (List.mem_filter.1 hx).1
        · intro hx
          by_cases hf : x ∈ flatEdges (buildEdges dirs deps)
          · exact List.mem_append_left _ ((mem_nodeKeys_buildNodes _ x).2 hf)
          · exact List.mem_append_right _
              (List.mem_filter.2 ⟨hx, by rw [decide_eq_true_eq]; exact hf⟩)
      have hpermKT : (nodeKeys (buildNodes (buildEdges dirs deps)) ++
          dirs.filter (fun d => decide (d ∉ flatEdges (buildEdges dirs deps)))).Perm dirs :=
        List.perm_of_nodup_nodup_toFinset_eq hKT_nodup hnd
          (Finset.ext (fun x => by
            simp only [List.mem_toFinset]
            exact hmemKT x))
      have hp1 : (st.sorted ++
          sortCirc (buildNodes (buildEdges dirs deps)) st.circular).Perm
          (st.sorted ++ st.circular) :=
        (List.Perm.refl st.sorted).append
          (sortCirc_perm (buildNodes (buildEdges dirs deps)) st.circular)
      exact ((hp1.append_right _).trans (hpermSC.append_right _)).trans hpermKT

/-- Witness for C1 at a concrete input (a two-cycle). -/
theorem topoSort_perm_input_witness :
    ∃ out, topoSort [1, 2]
        (fun a b => (a == 1 && b == 2) || (a == 2 && b == 1)) = .ok out ∧
      out.Perm [1, 2] :=
  topoSort_perm_input [1, 2] _ (by decide) (by decide)

/-- C6: the standalone packages — those that are endpoint of no derived
edge — form the final trailing block of the result, in input order, and
none of them occurs earlier in the result. -/
theorem topoSort_standalones_trailing (dirs : List α) (deps : α → α → Bool)
    (out : List α) (hlen : dirs.length ≠ 1) (hout : topoSort dirs deps = .ok out) :
    ∃ pre, out = pre ++
        dirs.filter (fun d => decide (d ∉ flatEdges (buildEdges dirs deps))) ∧
      ∀ x ∈ dirs.filter (fun d => decide (d ∉ flatEdges (buildEdges dirs deps))),
        x ∉ pre := by
  obtain ⟨st, hst⟩ := runTopoE_ok (buildEdges dirs deps)
  obtain ⟨hinv, hvk, _, _⟩ := runTopoE_spec (buildEdges dirs deps) st hst
  rw [topoSort, if_neg hlen, topoSortParts, topoSortPartsE, hst] at hout
  simp only [Except.map] at hout
  have hout' := Except.ok.inj hout
  refine ⟨st.sorted ++ sortCirc (buildNodes (buildEdges dirs deps)) st.circular,
    hout'.symm, ?_⟩
  intro x hx hc
  obtain ⟨_, hxf⟩ := List.mem_filter.1 hx
  rw [decide_eq_true_eq] at hxf
  have hxkeys : x ∈ nodeKeys (buildNodes (buildEdges dirs deps)) := by
    rcases List.mem_append.1 hc with hc | hc
    · exact hvk x (hinv.2.2.2.1 x hc)
    · have hxc : x ∈ st.circular :=
        (sortCirc_perm (buildNodes (buildEdges dirs deps)) st.circular).mem_iff.1 hc
      exact hvk x (hinv.2.2.2.2 x hxc)
  exact hxf ((mem_nodeKeys_buildNodes _ x).1 hxkeys)

/-- Witness for C6 at the spec's example: ids `[1, 2, 3]` with the only
edge `1 → 2`; the standalone `3` is the trailing block. -/
theorem topoSort_standalones_trailing_witness :
    ∃ pre, [2, 1, 3] = pre ++
        [1, 2, 3].filter (fun d => decide
          (d ∉ flatEdges (buildEdges [1, 2, 3] (fun a b => a == 1 && b == 2)))) ∧
      ∀ x ∈ [1, 2, 3].filter (fun d => decide
          (d ∉ flatEdges (buildEdges [1, 2, 3] (fun a b => a == 1 && b == 2)))),
        x ∉ pre :=
  topoSort_standalones_trailing [1, 2, 3] (fun a b => a == 1 && b == 2) [2, 1, 3]
    (by decide) (by decide)

/-- C4: the trailing circular block is the circular record sorted by
ascending out-degree, and the sort is stable: among members of equal
out-degree the order of the block is their encounter order (the order in
which they were inserted into the circular record). -/
theorem circular_block_ordering (dirs : List α) (deps : α → α → Bool)
    (s c t : List α) (hp : topoSortParts dirs deps = .ok (s, c, t)) :
    ∃ st, runTopo dirs deps = .ok st ∧
      c.Pairwise (fun a b =>
        outDeg (buildNodes (buildEdges dirs deps)) a ≤
          outDeg (buildNodes (buildEdges dirs deps)) b) ∧
      ∀ d : Nat,
        c.filter (fun k =>
          decide (outDeg (buildNodes (buildEdges dirs deps)) k = d)) =
        st.circular.filter (fun k =>
          decide (outDeg (buildNodes (buildEdges dirs deps)) k = d)) := by
  obtain ⟨st, hst⟩ := runTopoE_ok (buildEdges dirs deps)
  rw [topoSortParts, topoSortPartsE, hst] at hp
  simp only [Except.map] at hp
  have h3 := Except.ok.inj hp
  have hc : sortCirc (buildNodes (buildEdges dirs deps)) st.circular = c := by
    have := congrArg (fun p : List α × List α × List α => p.2.1) h3
    simpa using this
  refine ⟨st, hst, ?_, ?_⟩
  · rw [← hc]
    exact sortCirc_pairwise _ _
  · intro d
    rw [← hc]
    exact sortCirc_filter _ _ d

/-- Witness for C4 at a concrete input (a two-cycle: both members have
out-degree 1, so the block keeps their encounter order). -/
theorem circular_block_ordering_witness :
    ∃ st, runTopo [1, 2]
        (fun a b => (a == 1 && b == 2) || (a == 2 && b == 1)) = .ok st ∧
      List.Pairwise (fun a b =>
        outDeg (buildNodes (buildEdges [1, 2]
          (fun a b => (a == 1 && b == 2) || (a == 2 && b == 1)))) a ≤
        outDeg (buildNodes (buildEdges [1, 2]
          (fun a b => (a == 1 && b == 2) || (a == 2 && b == 1)))) b) [2, 1] ∧
      ∀ d : Nat,
        [2, 1].filter (fun k =>
          decide (outDeg (buildNodes (buildEdges [1, 2]
            (fun a b => (a == 1 && b == 2) || (a == 2 && b == 1)))) k = d)) =
        st.circular.filter (fun k =>
          decide (outDeg (buildNodes (buildEdges [1, 2]
            (fun a b => (a == 1 && b == 2) || (a == 2 && b == 1)))) k = d)) :=
  circular_block_ordering [1, 2] _ [] [2, 1] [] (by decide)

/-- A rank function strictly decreasing along a relation certifies that
the relation has no cycle (used to discharge acyclicity at concrete
inputs). -/
theorem not_transGen_self_of_rank {r : α → α → Prop} (f : α → Nat)
    (hf : ∀ a b, r a b → f b < f a) : ∀ x, ¬ Relation.TransGen r x x := by
  have hlt : ∀ a b, Relation.TransGen r a b → f b < f a := by
    intro a b h
    induction h with
    | single h => exact hf _ _ h
    | tail _ hbc ih => exact Nat.lt_trans (hf _ _ hbc) ih
  intro x hx
  exact Nat.lt_irrefl _ (hlt x x hx)

/-- C2: when the derived edge relation is acyclic, `topoSort` succeeds
and for every edge `(a, b)` (`a` depends on `b`), `b` appears strictly
before `a` in the result. -/
theorem topoSort_acyclic_edge_order (dirs : List α) (deps : α → α → Bool)
    (hacy : ∀ x, ¬ Relation.TransGen
      (fun a b => (a, b) ∈ buildEdges dirs deps) x x) :
    ∃ out, topoSort dirs deps = .ok out ∧
      ∀ a b, (a, b) ∈ buildEdges dirs deps →
        b ∈ out ∧ a ∈ out ∧ out.indexOf b < out.indexOf a := by
  by_cases h : dirs.length = 1
  · obtain ⟨x, rfl⟩ := List.length_eq_one.1 h
    refine ⟨[x], by rw [topoSort, if_pos (by simp)], ?_⟩
    intro a b hab
    rw [buildEdges_singleton] at hab
    cases hab
  · obtain ⟨st, hst⟩ := runTopoE_ok (buildEdges dirs deps)
    obtain ⟨hinv, hvk, hkv, hclass⟩ := runTopoE_spec (buildEdges dirs deps) st hst
    have hacy' : ∀ x, ¬ Relation.TransGen
        (Rel (buildNodes (buildEdges dirs deps))) x x := by
      intro x hx
      refine hacy x (Relation.TransGen.mono ?_ hx)
      intro a b hab
      exact (mem_adjL_buildNodes_iff _ a b).1 hab
    obtain ⟨hcirc, hgood⟩ := runTopoE_acyc (buildEdges dirs deps) hacy' st hst
    refine ⟨st.sorted ++ sortCirc (buildNodes (buildEdges dirs deps)) st.circular ++
      dirs.filter (fun d => decide (d ∉ flatEdges (buildEdges dirs deps))), ?_, ?_⟩
    · rw [topoSort, if_neg h, topoSortParts, topoSortPartsE, hst]
      rfl
    · have hcirc' : sortCirc (buildNodes (buildEdges dirs deps)) st.circular = [] := by
        rw [hcirc]
        rfl
      rw [hcirc', List.append_nil]
      intro a b hab
      have haf : a ∈ flatEdges (buildEdges dirs deps) :=
        (mem_flatEdges_iff _ a).2 ⟨(a, b), hab, Or.inl rfl⟩
      have hav : a ∈ st.visited := hkv a ((mem_nodeKeys_buildNodes _ a).2 haf)
      have hasorted : a ∈ st.sorted := by
        rcases hclass a hav with h' | h'
        · exact h'
        · rw [hcirc] at h'
          cases h'
      have hbadj : b ∈ adjL (buildNodes (buildEdges dirs deps)) a :=
        (mem_adjL_buildNodes_iff _ a b).2 hab
      obtain ⟨hbs, hblt⟩ := hgood a hasorted b hbadj
      refine ⟨List.mem_append_left _ hbs, List.mem_append_left _ hasorted, ?_⟩
      rw [List.indexOf_append_of_mem hbs, List.indexOf_append_of_mem hasorted]
      exact hblt

/-- Witness for C2 at a concrete acyclic input (single edge `1 → 2`,
acyclicity certified by a rank function). -/
theorem topoSort_acyclic_edge_order_witness :
    ∃ out, topoSort [1, 2] (fun a b => a == 1 && b == 2) = .ok out ∧
      ∀ a b, (a, b) ∈ buildEdges [1, 2] (fun a b => a == 1 && b == 2) →
        b ∈ out ∧ a ∈ out ∧ out.indexOf b < out.indexOf a :=
  topoSort_acyclic_edge_order [1, 2] _
    (not_transGen_self_of_rank (fun n => if n = 1 then 1 else 0) (by
      intro a b hab
      rw [mem_buildEdges] at hab
      obtain ⟨_, _, _, hd⟩ := hab
      simp only [Bool.and_eq_true, beq_iff_eq] at hd
      obtain ⟨rfl, rfl⟩ := hd
      decide))

/-- C3 counterexample: in the three-cycle `1 → 2 → 3 → 1` the package
`2` participates in the cycle (the three edges are all derived), yet the
result blocks are `sorted = [2]`, `circular = [3, 1]`, `standalones = []`:
`2` ends in the main acyclic prefix, not in the trailing circular block.
Only the back edge's detecting node (`3`) and its closing node (`1`) are
recorded circular. -/
theorem cycle_participant_in_prefix_counterexample :
    topoSortParts [1, 2, 3]
        (fun a b => (a == 1 && b == 2) || (a == 2 && b == 3) || (a == 3 && b == 1)) =
      .ok ([2], [3, 1], []) ∧
    (1, 2) ∈ buildEdges [1, 2, 3]
      (fun a b => (a == 1 && b == 2) || (a == 2 && b == 3) || (a == 3 && b == 1)) ∧
    (2, 3) ∈ buildEdges [1, 2, 3]
      (fun a b => (a == 1 && b == 2) || (a == 2 && b == 3) || (a == 3 && b == 1)) ∧
    (3, 1) ∈ buildEdges [1, 2, 3]
      (fun a b => (a == 1 && b == 2) || (a == 2 && b == 3) || (a == 3 && b == 1)) ∧
    (2 : Nat) ∉ [3, 1] ∧ (2 : Nat) ∈ [2] := by
  decide

/-- C3 amended: the nodes placed in the circular set are the detecting
node and the closing node of each detected back edge, not every cycle
participant.  In particular, for a two-cycle `A → B, B → A` with no other
packages, both `A` and `B` end up in the trailing circular block: the
main prefix and the standalone block are empty and the whole result is
the circular block `[B, A]`. -/
theorem two_cycle_both_in_circular_block (A B : α) (hAB : A ≠ B) :
    topoSortParts [A, B]
        (fun x y => (decide (x = A) && decide (y = B)) ||
          (decide (x = B) && decide (y = A))) =
      .ok ([], [B, A], []) ∧
    topoSort [A, B]
        (fun x y => (decide (x = A) && decide (y = B)) ||
          (decide (x = B) && decide (y = A))) =
      .ok [B, A] ∧
    A ∈ [B, A] ∧ B ∈ [B, A] := by
  have hBA : B ≠ A := Ne.symm hAB
  have hparts : topoSortParts [A, B]
      (fun x y => (decide (x = A) && decide (y = B)) ||
        (decide (x = B) && decide (y = A))) =
      .ok ([], [B, A], []) := by
    simp [topoSortParts, topoSortPartsE, runTopoE, buildEdges, buildNodes, addEdgeStep,
      addNode, addVert, nodeKeys, runKeys, cbF, cbVertsG, findAdj, adjL, pushCirc,
      sortCirc, insertLen, outDeg, flatEdges, List.filter_cons, hAB, hBA]
    simp [Except.map, insertLen, outDeg, adjL, findAdj, hAB, hBA]
  refine ⟨hparts, ?_, by simp, by simp⟩
  rw [topoSort, if_neg (by simp), hparts]
  rfl

/-- Witness for the amended C3 at a concrete two-cycle. -/
theorem two_cycle_both_in_circular_block_witness :
    topoSortParts [1, 2]
        (fun x y => (decide (x = 1) && decide (y = 2)) ||
          (decide (x = 2) && decide (y = 1))) =
      .ok ([], [2, 1], []) ∧
    topoSort [1, 2]
        (fun x y => (decide (x = 1) && decide (y = 2)) ||
          (decide (x = 2) && decide (y = 1))) =
      .ok [2, 1] ∧
    (1 : Nat) ∈ [2, 1] ∧ (2 : Nat) ∈ [2, 1] :=
  two_cycle_both_in_circular_block 1 2 (by decide)

end TopoSpec

namespace TopoSpec

/-! ## Concrete evaluations of the embedded sorter -/

/-- A two-cycle: the whole result is the circular block, in circular
insertion order. -/
theorem eval_two_cycle :
    topoSort [1, 2] (fun a b => (a == 1 && b == 2) || (a == 2 && b == 1)) =
      .ok [2, 1] := by decide

/-- A three-cycle `1 → 2 → 3 → 1`: only the detecting node `3` and the
closing node `1` are circular; `2` lands in the main prefix. -/
theorem eval_three_cycle :
    topoSortParts [1, 2, 3]
        (fun a b => (a == 1 && b == 2) || (a == 2 && b == 3) || (a == 3 && b == 1)) =
      .ok ([2], [3, 1], []) := by decide

/-- A chain `1 → 2` with standalone `3`: dependency first, then the
dependent, then the standalone. -/
theorem eval_chain_standalone :
    topoSort [1, 2, 3] (fun a b => a == 1 && b == 2) = .ok [2, 1, 3] := by decide

/-- The specification's mixed scenario: `1 → 2`, cycle `2 ↔ 3`,
standalone `4`; the cycle members trail in insertion order `[3, 2]`, `1`
completes its post-order append in the main prefix, `4` is last. -/
theorem eval_mixed_scenario :
    topoSort [1, 2, 3, 4]
        (fun a b => (a == 1 && b == 2) || (a == 2 && b == 3) || (a == 3 && b == 2)) =
      .ok [1, 3, 2, 4] := by decide

end TopoSpec
